import Mathlib

/-!
Verification model of the feed-worker repository (`src/index.ts`).

The TypeScript source is shallowly embedded: JS arrays become `List`,
optional values (`undefined`) become `Option`, epoch-millisecond dates
become `Int` (they may be negative for pre-1970 dates), and JS truthiness
tests on optional strings/numbers are embedded explicitly (`""` and `0`
are falsy).  `Array.prototype.sort`, which ECMAScript requires to be a
stable sort consistent with the comparator, is modelled by the stable
`List.insertionSort` on the comparator's key.  The Cloudflare KV store is
modelled as an association list from string keys to stored values, and
stateful functions return an explicit write log.
-/

/-- The `FeedItem` interface of the source. -/
structure FeedItem where
  id : String
  title : String
  link : Option String := none
  date : Option Int := none
  summary : Option String := none
deriving DecidableEq, Repr

/-- Result shape of `diffItems`. -/
structure DiffResult where
  newItems : List FeedItem
  latestItem : Option FeedItem := none
deriving DecidableEq, Repr

/-- JS truthiness of a `string | undefined` value: `undefined` and `""` are falsy. -/
def jsTruthyStr : Option String → Bool
  | some s => s != ""
  | none => false

/-- JS truthiness of a `number | undefined` value: `undefined` and `0` are falsy
(`NaN` is unrepresentable here: `parseDate` filters it out). -/
def jsTruthyNum : Option Int → Bool
  | some n => n != 0
  | none => false

/-- Sort key used by `diffItems`' comparator: `item.date ?? 0`. -/
def dateKey (it : FeedItem) : Int := it.date.getD 0

/-- The order realised by the comparator `(a, b) => (a.date ?? 0) - (b.date ?? 0)`. -/
def dateLe (a b : FeedItem) : Prop := dateKey a ≤ dateKey b

instance : DecidableRel dateLe := fun a b =>
  inferInstanceAs (Decidable (dateKey a ≤ dateKey b))

instance : IsTotal FeedItem dateLe := ⟨fun a b => Int.le_total (dateKey a) (dateKey b)⟩

instance : IsTrans FeedItem dateLe := ⟨fun _ _ _ => Int.le_trans⟩

/-- JS `[...items]`: a spread copy of an array; the copy has the same contents. -/
def spreadCopy (items : List FeedItem) : List FeedItem := items

/-- The ordering step of `diffItems`:
`withDate ? [...items].sort((a, b) => (a.date ?? 0) - (b.date ?? 0)) : [...items]`.
The in-place sort acts on the spread copy; ECMAScript guarantees the result is the
stable sort by the comparator, modelled by `insertionSort` on `dateLe`. -/
def sortStep (items : List FeedItem) : List FeedItem :=
  if items.any fun it => it.date.isSome then
    List.insertionSort dateLe (spreadCopy items)
  else spreadCopy items

/-- `diffItems(items, lastId?, lastDate?)` from the source, translated clause by
clause (the four branches: empty input / first check / id match / date fallback /
single-item last resort). -/
def diffItems (items : List FeedItem) (lastId : Option String)
    (lastDate : Option Int) : DiffResult :=
  if items.isEmpty then { newItems := [] }
  else
    let sorted := sortStep items
    let latestItem := sorted.getLast?
    if ¬ jsTruthyStr lastId ∧ ¬ jsTruthyNum lastDate then
      { newItems := [], latestItem := latestItem }
    else
      let newItems1 : List FeedItem :=
        if jsTruthyStr lastId then
          match sorted.findIdx? (fun it => it.id == lastId.getD "") with
          | some i => sorted.drop (i + 1)
          | none => []
        else []
      let newItems2 : List FeedItem :=
        if newItems1.isEmpty ∧ jsTruthyNum lastDate then
          sorted.filter fun it =>
            match it.date with
            | some d => d != 0 && decide (lastDate.getD 0 < d)
            | none => false
        else newItems1
      let newItems3 : List FeedItem :=
        if newItems2.isEmpty ∧ latestItem.isSome ∧ latestItem.map (·.id) ≠ lastId then
          latestItem.toList
        else newItems2
      { newItems := newItems3, latestItem := latestItem }

/-- `diffItems` together with the post-call content of the caller's `items`
array.  The source reads `items` (`length`, `some`, spread) and sorts only the
spread copy in place, so the argument array is unchanged when the call returns. -/
def diffItemsRun (items : List FeedItem) (lastId : Option String)
    (lastDate : Option Int) : DiffResult × List FeedItem :=
  (diffItems items lastId lastDate, items)

/-! ## Parsed-XML value model and item normalization -/

/-- A JavaScript value as produced by the XML parser (`fast-xml-parser` with
attributes merged in, no attribute name marker). -/
inductive JVal where
  | undefined
  | null
  | str (s : String)
  | num (n : Int)
  | obj (fields : List (String × JVal))
  | arr (elems : List JVal)

mutual

/-- JS `String(v)` coercion. -/
def jsString : JVal → String
  | .undefined => "undefined"
  | .null => "null"
  | .str s => s
  | .num n => toString n
  | .obj _ => "[object Object]"
  | .arr es => jsStringList es

/-- Array `toString`: elements joined by commas, nullish elements as `""`. -/
def jsStringList : List JVal → String
  | [] => ""
  | [v] => jsStringElem v
  | v :: rest => jsStringElem v ++ "," ++ jsStringList rest

def jsStringElem : JVal → String
  | .undefined => ""
  | .null => ""
  | v => jsString v

end

/-- JS property read `v[k]` (absent key, or a non-object receiver, reads `undefined`). -/
def JVal.get (v : JVal) (k : String) : JVal :=
  match v with
  | .obj fields => ((fields.find? fun f => f.1 == k).map Prod.snd).getD .undefined
  | _ => .undefined

/-- JS `k in v` for parsed objects (parsed arrays carry no such string keys). -/
def JVal.hasKey (v : JVal) (k : String) : Bool :=
  match v with
  | .obj fields => fields.any fun f => f.1 == k
  | _ => false

/-- JS falsiness of a parsed value (`undefined`, `null`, `""`, `0`). -/
def JVal.falsy : JVal → Bool
  | .undefined => true
  | .null => true
  | .str s => s == ""
  | .num n => n == 0
  | .obj _ => false
  | .arr _ => false

/-- JS nullish coalescing `a ?? b`. -/
def JVal.coalesce (a b : JVal) : JVal :=
  match a with
  | .undefined => b
  | .null => b
  | v => v

/-- `pickText(value)`: primitives stringify; objects expose a `"#text"` or `"text"`
payload; everything else (arrays included — they are JS objects without those keys)
yields `undefined`. -/
def pickText (value : JVal) : Option String :=
  match value with
  | .undefined => none
  | .null => none
  | .str s => some s
  | .num n => some (jsString (.num n))
  | .obj fs =>
      let v := JVal.obj fs
      if v.hasKey "#text" then some (jsString (v.get "#text"))
      else if v.hasKey "text" then some (jsString (v.get "text"))
      else none
  | .arr _ => none

/-- JS `link?.rel === "alternate"`: true exactly when the `rel` property is the
string `"alternate"` (strict equality never holds across types). -/
def relAlternate (l : JVal) : Bool :=
  match l.get "rel" with
  | .str s => s == "alternate"
  | _ => false

/-- The element an array-valued `link` field selects:
`value.find((link) => link?.rel === "alternate") ?? value[0]`. -/
def arrPreferred (es : List JVal) : JVal :=
  (es.find? relAlternate).getD (es.headD .undefined)

/-- `pickLink(value)`: a bare string is the link; an array recurses into the
`rel="alternate"` entry (else the first); an object exposes
`href ?? url ?? @_href ?? #text`.  Href-like payloads are primitives in parsed
feeds; a primitive payload is taken by its string form. -/
def pickLink : JVal → Option String
  | .undefined => none
  | .null => none
  | .str s => some s
  | .num _ => none
  | .obj fs =>
      let v := JVal.obj fs
      match (v.get "href").coalesce ((v.get "url").coalesce
          ((v.get "@_href").coalesce (v.get "#text"))) with
      | .undefined => none
      | .null => none
      | c => some (jsString c)
  | .arr es => pickLink (arrPreferred es)
termination_by v => sizeOf v
decreasing_by
  simp_wf
  have harr : sizeOf (JVal.arr es) = 1 + sizeOf es := by simp
  have hlt : sizeOf (arrPreferred es) < sizeOf (JVal.arr es) := by
    unfold arrPreferred
    cases h : es.find? relAlternate with
    | some v =>
        have hmem : v ∈ es := List.mem_of_find?_eq_some h
        have := List.sizeOf_lt_of_mem hmem
        simpa [harr] using by omega
    | none =>
        cases es with
        | nil => simp [List.headD]
        | cons a as =>
            have : sizeOf a < sizeOf (a :: as) := by
              simp only [List.cons.sizeOf_spec]; omega
            simpa [List.headD, harr] using by
              simp only [List.cons.sizeOf_spec] at this ⊢; omega
  simpa [harr] using hlt

/-- `parseDate(value)`; the platform `Date.parse` is a parameter `dp` (returning
`none` both for `NaN` and, composed here, for absent text). -/
def parseDate (dp : String → Option Int) (value : JVal) : Option Int :=
  (pickText value).bind dp

/-- `normalizeRssItem(item)` (also used for RDF items). -/
def normalizeRssItem (dp : String → Option Int) (item : JVal) : Option FeedItem :=
  if item.falsy then none
  else
    let title := (pickText (item.get "title")).getD "(no title)"
    let link := pickLink (item.get "link")
    let id := (pickText (item.get "guid")).getD (link.getD title)
    let date := parseDate dp ((item.get "pubDate").coalesce ((item.get "date").coalesce
      ((item.get "published").coalesce (item.get "updated"))))
    some { id := id, title := title, link := link, date := date,
           summary := pickText (item.get "description") }

/-- `normalizeAtomEntry(entry)`. -/
def normalizeAtomEntry (dp : String → Option Int) (entry : JVal) : Option FeedItem :=
  if entry.falsy then none
  else
    let title := (pickText (entry.get "title")).getD "(no title)"
    let link := pickLink (entry.get "link")
    let id := (pickText (entry.get "id")).getD (link.getD title)
    let date := parseDate dp ((entry.get "updated").coalesce (entry.get "published"))
    some { id := id, title := title, link := link, date := date,
           summary := pickText ((entry.get "summary").coalesce (entry.get "content")) }

/-! ## Subscription store and guild index -/

/-- The `Subscription` interface of the source. -/
structure Subscription where
  id : String
  guildId : String
  channelId : String
  url : String
  createdAt : Int
  lastItemId : Option String := none
  lastItemDate : Option Int := none
  feedTitle : Option String := none
  errorCount : Option Int := none
  lastError : Option String := none
deriving DecidableEq, Repr

def subscriptionKey (guildId subId : String) : String :=
  "sub:g:" ++ guildId ++ ":" ++ subId

def guildIndexKey (guildId : String) : String :=
  "subindex:g:" ++ guildId

/-- A value held at a key: a guild index (string-id list), a subscription record,
or content that does not deserialize to the type the reader expects. -/
inductive StoredVal where
  | indexVal (ids : List String)
  | subVal (s : Subscription)
  | corrupt
deriving DecidableEq, Repr

/-- The KV namespace: an association list from key to stored value.  Enumeration
order of `list` is the association-list order (the platform store enumerates
lexicographically; the claims below depend only on which records are returned). -/
abbrev KVStore := List (String × StoredVal)

def kvGet (st : KVStore) (k : String) : Option StoredVal :=
  (st.find? fun e => e.1 == k).map Prod.snd

def kvPut (st : KVStore) (k : String) (v : StoredVal) : KVStore :=
  if st.any fun e => e.1 == k then
    st.map fun e => if e.1 == k then (k, v) else e
  else st ++ [(k, v)]

/-- Apply a write log in order. -/
def applyWrites (st : KVStore) (ws : List (String × StoredVal)) : KVStore :=
  ws.foldl (fun s e => kvPut s e.1 e.2) st

/-- `get<string[]>(guildIndexKey(g), "json")`: `none` when the key is absent or its
content does not read back as a string list. -/
def getIndexList (st : KVStore) (g : String) : Option (List String) :=
  match kvGet st (guildIndexKey g) with
  | some (.indexVal ids) => some ids
  | _ => none

/-- `get<Subscription>(key, "json")`: deserialization failure is treated as absence. -/
def getSub (st : KVStore) (k : String) : Option Subscription :=
  match kvGet st k with
  | some (.subVal s) => some s
  | _ => none

/-- Character-level `startsWith` (kernel-computable model of the byte-level
library routine): does the second list lead the first? -/
def strStartsAux : List Char → List Char → Bool
  | [], _ => true
  | _ :: _, [] => false
  | c :: cs, d :: ds => d == c && strStartsAux cs ds

/-- `key.startsWith(p)`. -/
def strStarts (s p : String) : Bool := strStartsAux p.data s.data

/-- `listAllKeys(kv, p)`: every stored key starting with `p` (cursor pagination
flattened away). -/
def listAllKeys (st : KVStore) (p : String) : List String :=
  (st.map Prod.fst).filter fun k => strStarts k p

/-- `listSubscriptionsByGuild(env, guildId)`: full per-tenant key scan. -/
def listSubscriptionsByGuild (st : KVStore) (guildId : String) : List Subscription :=
  (listAllKeys st ("sub:g:" ++ guildId ++ ":")).filterMap fun k => getSub st k

/-- `getSubscriptionsForGuild(env, guildId)`, returning the listed subscriptions
together with the write log the call produces. -/
def getSubscriptionsForGuild (st : KVStore) (guildId : String) :
    List Subscription × List (String × StoredVal) :=
  let indexKey := guildIndexKey guildId
  let index := (getIndexList st guildId).getD []
  if index.length > 0 then
    let valid := index.filterMap fun id => getSub st (subscriptionKey guildId id)
    let writes := if valid.length ≠ index.length then
        [(indexKey, .indexVal (valid.map (·.id)))]
      else []
    (valid, writes)
  else
    let fallback := listSubscriptionsByGuild st guildId
    let writes := if fallback.length > 0 then
        [(indexKey, .indexVal (fallback.map (·.id)))]
      else []
    (fallback, writes)

/-- `addToIndex(env, guildId, subId)` as a write log. -/
def addToIndex (st : KVStore) (guildId subId : String) : List (String × StoredVal) :=
  let index := (getIndexList st guildId).getD []
  if subId ∈ index then []
  else [(guildIndexKey guildId, .indexVal (index ++ [subId]))]

/-- `removeFromIndex(env, guildId, subId)` as a write log. -/
def removeFromIndex (st : KVStore) (guildId subId : String) : List (String × StoredVal) :=
  let index := (getIndexList st guildId).getD []
  let next := index.filter fun id => id ≠ subId
  if next.length ≠ index.length then [(guildIndexKey guildId, .indexVal next)]
  else []

/-! ## Reconciliation cycle -/

inductive FeedFormat where
  | rss | atom | rdf | unknown
deriving DecidableEq, Repr

/-- The `ParsedFeed` interface of the source. -/
structure ParsedFeed where
  items : List FeedItem
  format : FeedFormat
  title : Option String := none
deriving DecidableEq, Repr

/-- Outcome of the scheduled fetch-and-parse of a subscription's URL. -/
inductive FetchOut where
  | httpFail (status : Nat)
  | parseFail
  | ok (feed : ParsedFeed)
deriving DecidableEq, Repr

/-- The external world one cycle runs against: the fetch/parse outcome per URL and
the notification sink's answer per `(channelId, content)`. -/
structure FetchEnv where
  fetch : String → FetchOut
  sendOk : String → String → Bool

/-- JS `value.replace(/\s+/g, " ")` at the character level. -/
def collapseWsAux : Bool → List Char → List Char
  | _, [] => []
  | prevWs, c :: rest =>
    if c.isWhitespace then
      (if prevWs then [] else [' ']) ++ collapseWsAux true rest
    else c :: collapseWsAux false rest

def collapseWs (s : String) : String := ⟨collapseWsAux false s.data⟩

/-- JS `String.prototype.trim` (character-level whitespace model). -/
def jsTrim (s : String) : String :=
  ⟨((s.data.dropWhile Char.isWhitespace).reverse.dropWhile Char.isWhitespace).reverse⟩

/-- `normalizeFeedTitle(value?)`; JS string length and slicing modelled on
characters. -/
def normalizeFeedTitle : Option String → Option String
  | none => none
  | some v =>
    if v == "" then none
    else
      let trimmed := jsTrim (collapseWs v)
      if trimmed == "" then none
      else if trimmed.length > 200 then some ⟨trimmed.data.take 197 ++ "...".data⟩
      else some trimmed

/-- `formatDiscordMessage(item)`. -/
def formatDiscordMessage (item : FeedItem) : String :=
  let title := if item.title != "" then jsTrim item.title else "(no title)"
  let link := if jsTruthyStr item.link then jsTrim (item.link.getD "") else ""
  let base := if link != "" then title ++ "\n" ++ link else title
  if base.length > 1900 then ⟨base.data.take 1897⟩ ++ "..." else base

/-- What one `processSubscription` call did: the final state of the (mutated)
record object, the puts it performed, the messages successfully delivered, and
the error it threw, if any. -/
structure ProcOut where
  sub : Subscription
  writes : List (String × StoredVal)
  sends : List (String × String)
  error : Option String
deriving Repr

/-- The sequential `for (const item of newItems)` send loop: the messages
delivered and the error of the first failing send (which aborts the loop). -/
def sendAll (env : FetchEnv) (channelId : String) :
    List FeedItem → List (String × String) × Option String
  | [] => ([], none)
  | item :: rest =>
    let content := formatDiscordMessage item
    if env.sendOk channelId content then
      let r := sendAll env channelId rest
      ((channelId, content) :: r.1, r.2)
    else ([], some "Discord post failed")

/-- `processSubscription(env, subscription)`, translated branch by branch; the
record object's mutations (`feedTitle` before the sends, the watermark and error
fields only after every send succeeded) are made explicit. -/
def processSubscription (env : FetchEnv) (subscription : Subscription) : ProcOut :=
  match env.fetch subscription.url with
  | .httpFail status =>
      { sub := subscription, writes := [], sends := [],
        error := some ("Feed fetch failed (" ++ toString status ++ ")") }
  | .parseFail =>
      { sub := subscription, writes := [], sends := [],
        error := some "XML parse error" }
  | .ok feed =>
    if feed.format = .unknown then
      { sub := subscription, writes := [], sends := [],
        error := some "Unsupported feed format" }
    else
      let normalizedTitle := normalizeFeedTitle feed.title
      let titleChanged : Bool :=
        normalizedTitle.isSome && normalizedTitle != subscription.feedTitle
      let sub1 := if titleChanged then { subscription with feedTitle := normalizedTitle }
        else subscription
      if feed.items.isEmpty then
        { sub := sub1,
          writes := if titleChanged then
              [(subscriptionKey sub1.guildId sub1.id, .subVal sub1)]
            else [],
          sends := [], error := none }
      else
        let r := diffItems feed.items subscription.lastItemId subscription.lastItemDate
        if r.newItems.isEmpty then
          let sub2 :=
            match r.latestItem with
            | some li =>
                if some li.id ≠ subscription.lastItemId then
                  { sub1 with lastItemId := some li.id, lastItemDate := li.date }
                else sub1
            | none => sub1
          { sub := sub2,
            writes := if r.latestItem.isSome || titleChanged then
                [(subscriptionKey sub2.guildId sub2.id, .subVal sub2)]
              else [],
            sends := [], error := none }
        else
          let sent := sendAll env subscription.channelId r.newItems
          match sent.2 with
          | some e => { sub := sub1, writes := [], sends := sent.1, error := some e }
          | none =>
            let sub3 :=
              match r.newItems.getLast? with
              | some lastPosted =>
                  { sub1 with lastItemId := some lastPosted.id,
                              lastItemDate := lastPosted.date,
                              errorCount := some 0, lastError := none }
              | none => sub1
            { sub := sub3,
              writes := [(subscriptionKey sub3.guildId sub3.id, .subVal sub3)],
              sends := sent.1, error := none }

/-- The `catch` clause of the cycle loop:
`errorCount = (errorCount ?? 0) + 1; lastError = message;` then a put. -/
def errUpdate (sub : Subscription) (msg : String) : Subscription :=
  { sub with errorCount := some (sub.errorCount.getD 0 + 1), lastError := some msg }

/-- The `for (const subscription of active)` loop of `runFeedChecks`, with the
per-iteration `try`/`catch`. -/
def runLoop (env : FetchEnv) : KVStore → List Subscription → KVStore × List (String × String)
  | st, [] => (st, [])
  | st, sub :: rest =>
    let out := processSubscription env sub
    let st1 := match out.error with
      | some msg =>
          kvPut st (subscriptionKey out.sub.guildId out.sub.id) (.subVal (errUpdate out.sub msg))
      | none => applyWrites st out.writes
    let r := runLoop env st1 rest
    (r.1, out.sends ++ r.2)

/-- The cycle's subscription load: a full scan over `sub:g:`-keyed records,
unreadable ones dropped. -/
def activeSubs (st : KVStore) : List Subscription :=
  (listAllKeys st "sub:g:").filterMap fun k => getSub st k

/-- `runFeedChecks(env)`: final store content and the messages delivered. -/
def runFeedChecks (env : FetchEnv) (st : KVStore) : KVStore × List (String × String) :=
  runLoop env st (activeSubs st)

/-- The four ways processing a subscription fails: fetch failure, XML parse
error, unsupported feed format, or a notification-sink failure on one of the
new items. -/
def procFailure (env : FetchEnv) (sub : Subscription) : Prop :=
  (∃ status, env.fetch sub.url = .httpFail status)
  ∨ env.fetch sub.url = .parseFail
  ∨ (∃ feed, env.fetch sub.url = .ok feed ∧ feed.format = .unknown)
  ∨ (∃ feed, env.fetch sub.url = .ok feed ∧ feed.format ≠ .unknown
      ∧ ∃ it ∈ (diffItems feed.items sub.lastItemId sub.lastItemDate).newItems,
          env.sendOk sub.channelId (formatDiscordMessage it) = false)

/-- The subscription records a tenant actually holds in the store (spec's view of
"the N valid records of the tenant", to compare with what the listing returns). -/
def validGuildRecords (st : KVStore) (g : String) : List Subscription :=
  st.filterMap fun e =>
    if strStarts e.1 ("sub:g:" ++ g ++ ":") then
      match e.2 with
      | .subVal s => some s
      | _ => none
    else none

/-- Concrete fixtures for the cycle-driver witness: a failing and a healthy
subscription in one store. -/
def subC8a : Subscription :=
  { id := "s1", guildId := "g", channelId := "c", url := "u1", createdAt := 0,
    lastItemId := some "w", lastItemDate := some 5, errorCount := some 2 }

def subC8b : Subscription :=
  { id := "s2", guildId := "g", channelId := "c", url := "u2", createdAt := 0 }

def stC8 : KVStore :=
  [(subscriptionKey "g" "s1", .subVal subC8a), (subscriptionKey "g" "s2", .subVal subC8b)]

def envC8 : FetchEnv :=
  { fetch := fun url => if url == "u1" then .httpFail 500 else .ok ⟨[], .rss, none⟩,
    sendOk := fun _ _ => true }

/-! ## Ordering-step lemmas -/

theorem sortStep_perm (items : List FeedItem) : List.Perm (sortStep items) items := by
  unfold sortStep spreadCopy
  split
  · exact List.perm_insertionSort dateLe items
  · exact List.Perm.refl items

theorem sortStep_all_none (items : List FeedItem)
    (h : (items.any fun it => it.date.isSome) = false) :
    ∀ it ∈ items, it.date = none := by
  intro it hit
  rcases hd : it.date with _ | d
  · rfl
  · exfalso
    have : items.any (fun it => it.date.isSome) = true :=
      List.any_eq_true.mpr ⟨it, hit, by simp [hd]⟩
    simp [this] at h

theorem sortStep_sorted (items : List FeedItem) : (sortStep items).Sorted dateLe := by
  rcases hc : items.any fun it => it.date.isSome with _ | _
  · have hall := sortStep_all_none items hc
    have : sortStep items = items := by unfold sortStep spreadCopy; simp [hc]
    rw [this]
    clear this hc
    induction items with
    | nil => exact List.sorted_nil
    | cons a t ih =>
        refine List.sorted_cons.mpr ⟨fun b hb => ?_, ih fun b hb => hall b (by simp [hb])⟩
        have ha := hall a (by simp)
        have hb' := hall b (by simp [hb])
        simp [dateLe, dateKey, ha, hb']
  · have : sortStep items = List.insertionSort dateLe items := by
      unfold sortStep spreadCopy; simp [hc]
    rw [this]
    exact List.sorted_insertionSort dateLe items

theorem filter_orderedInsert_key (k : Int) (a : FeedItem) (l : List FeedItem) :
    (List.orderedInsert dateLe a l).filter (fun x => dateKey x == k)
      = if dateKey a == k then a :: l.filter (fun x => dateKey x == k)
        else l.filter (fun x => dateKey x == k) := by
  induction l with
  | nil =>
      by_cases hak : dateKey a == k <;> simp [List.orderedInsert, List.filter, hak]
  | cons b t ih =>
      by_cases hab : dateLe a b
      · simp only [List.orderedInsert, if_pos hab]
        by_cases hak : dateKey a == k <;> simp [List.filter_cons, hak]
      · have hba : dateKey b < dateKey a := by
          simp only [dateLe, not_le] at hab; exact hab
        simp only [List.orderedInsert, if_neg hab, List.filter_cons]
        rw [ih]
        by_cases hak : dateKey a == k <;> by_cases hbk : dateKey b == k <;>
          simp only [hak, hbk, if_pos, if_neg, Bool.false_eq_true, ite_false, ite_true]
        · exfalso
          have h1 : dateKey a = k := by simpa using hak
          have h2 : dateKey b = k := by simpa using hbk
          omega

theorem filter_insertionSort_key (k : Int) (l : List FeedItem) :
    (List.insertionSort dateLe l).filter (fun x => dateKey x == k)
      = l.filter (fun x => dateKey x == k) := by
  induction l with
  | nil => rfl
  | cons a t ih =>
      show (List.orderedInsert dateLe a (List.insertionSort dateLe t)).filter _ = _
      rw [filter_orderedInsert_key, ih, List.filter_cons]

theorem sortStep_filter_key (items : List FeedItem) (k : Int) :
    (sortStep items).filter (fun x => dateKey x == k)
      = items.filter (fun x => dateKey x == k) := by
  unfold sortStep spreadCopy
  split
  · exact filter_insertionSort_key k items
  · rfl

theorem sortStep_length (items : List FeedItem) : (sortStep items).length = items.length :=
  (sortStep_perm items).length_eq

theorem sortStep_ne_nil (items : List FeedItem) (h : items ≠ []) : sortStep items ≠ [] := by
  intro hs
  apply h
  have hl := sortStep_length items
  rw [hs] at hl
  exact List.length_eq_zero.mp hl.symm

theorem mem_sortStep {items : List FeedItem} {x : FeedItem} :
    x ∈ sortStep items ↔ x ∈ items :=
  (sortStep_perm items).mem_iff

theorem mem_of_getLast?_eq_some {l : List FeedItem} {y : FeedItem}
    (h : l.getLast? = some y) : y ∈ l := by
  obtain ⟨ys, rfl⟩ := List.getLast?_eq_some_iff.mp h
  simp

theorem sorted_dateLe_getLast {l : List FeedItem} (hs : l.Sorted dateLe) {x : FeedItem}
    (hx : x ∈ l) {y : FeedItem} (hy : l.getLast? = some y) : dateKey x ≤ dateKey y := by
  induction l with
  | nil => cases hx
  | cons a t ih =>
      cases t with
      | nil =>
          simp only [List.mem_singleton] at hx
          simp only [List.getLast?_cons, List.getLast?_nil] at hy
          subst hx
          cases hy
          exact le_refl _
      | cons b t' =>
          have hy' : (b :: t').getLast? = some y := by
            rwa [List.getLast?_cons_cons] at hy
          rcases List.mem_cons.mp hx with rfl | hx'
          · exact List.rel_of_sorted_cons hs y (mem_of_getLast?_eq_some hy')
          · exact ih hs.of_cons hx' hy'

/-! ## Theorems about the claims: diff engine -/

/-- C4 (amended): in `diffItems`, the ordering step is the stable ascending
sort by the key `date ?? 0` — missing dates are treated as epoch `0`, not as
lower than every dated item — and when no item carries a date it preserves
source order exactly.  Stability is expressed by the key-fiber filter equation. -/
theorem sortStep_ordering (items : List FeedItem) :
    ((items.any fun it => it.date.isSome) = false → sortStep items = items)
    ∧ (sortStep items).Sorted dateLe
    ∧ List.Perm (sortStep items) items
    ∧ ∀ k : Int, (sortStep items).filter (fun x => dateKey x == k)
        = items.filter (fun x => dateKey x == k) :=
  ⟨fun h => by unfold sortStep spreadCopy; simp [h],
   sortStep_sorted items, sortStep_perm items, sortStep_filter_key items⟩

theorem sortStep_ordering_witness :
    (([⟨"a", "a", none, none, none⟩, ⟨"b", "b", none, none, none⟩] : List FeedItem).any
        fun it => it.date.isSome) = false
    ∧ sortStep [⟨"a", "a", none, none, none⟩, ⟨"b", "b", none, none, none⟩]
        = [⟨"a", "a", none, none, none⟩, ⟨"b", "b", none, none, none⟩] :=
  ⟨by decide, (sortStep_ordering _).1 (by decide)⟩

/-- C4 counterexample to the claim as stated: an item with a negative date
(pre-1970 epoch value) sorts *before* an undated item, because undated items are
keyed `0`, not treated as lower than every dated item. -/
theorem sortStep_ordering_counterexample :
    sortStep [⟨"a", "a", none, none, none⟩, ⟨"b", "b", none, some (-5), none⟩]
      = [⟨"b", "b", none, some (-5), none⟩, ⟨"a", "a", none, none, none⟩]
    ∧ (⟨"b", "b", none, some (-5), none⟩ : FeedItem).date.isSome = true
    ∧ (⟨"a", "a", none, none, none⟩ : FeedItem).date = none := by decide

/-- C3: first check of a subscription (both watermark fields absent) on a
non-empty item list: no new items are reported and `latestItem` is the last
element of the ordered list, which carries the maximal date key. -/
theorem diffItems_first_check (items : List FeedItem) (h : items ≠ []) :
    ∃ last, (diffItems items none none).newItems = []
      ∧ (sortStep items).getLast? = some last
      ∧ (diffItems items none none).latestItem = some last
      ∧ ∀ it ∈ items, dateKey it ≤ dateKey last := by
  obtain ⟨last, hlast⟩ : ∃ y, (sortStep items).getLast? = some y := by
    cases hl : (sortStep items).getLast? with
    | none => exact absurd (List.getLast?_eq_none_iff.mp hl) (sortStep_ne_nil items h)
    | some y => exact ⟨y, rfl⟩
  have hdiff : diffItems items none none = ⟨[], some last⟩ := by
    unfold diffItems
    rw [if_neg (by simp [List.isEmpty_iff, h]), if_pos (by simp [jsTruthyStr, jsTruthyNum])]
    simp [hlast]
  refine ⟨last, by rw [hdiff], hlast, by rw [hdiff], fun it hit => ?_⟩
  exact sorted_dateLe_getLast (sortStep_sorted items) (mem_sortStep.mpr hit) hlast

theorem diffItems_first_check_witness :
    ([⟨"a", "a", none, some 1, none⟩, ⟨"b", "b", none, some 2, none⟩] : List FeedItem) ≠ []
    ∧ (diffItems [⟨"a", "a", none, some 1, none⟩, ⟨"b", "b", none, some 2, none⟩]
        none none).newItems = [] := by
  refine ⟨by decide, ?_⟩
  obtain ⟨last, h1, -, -, -⟩ :=
    diffItems_first_check [⟨"a", "a", none, some 1, none⟩, ⟨"b", "b", none, some 2, none⟩]
      (by decide)
  exact h1

/-- C1 (amended): when `lastItemId` is a non-empty string and matches the id
of an item of the ordered list — first occurrence at position `i` — `diffItems`
returns exactly the items strictly after position `i`, provided that suffix is
non-empty or `lastItemDate` is unset/zero (when the matched item is the last one
*and* `lastItemDate` is set, the date fallback takes over instead). -/
theorem diffItems_after_id (items : List FeedItem) (s : String) (lastDate : Option Int)
    (i : Nat) (hs : s ≠ "")
    (hidx : (sortStep items).findIdx? (fun it => it.id == s) = some i)
    (hcond : i + 1 < (sortStep items).length ∨ jsTruthyNum lastDate = false) :
    (diffItems items (some s) lastDate).newItems = (sortStep items).drop (i + 1) := by
  obtain ⟨hilen, hpi, -⟩ := List.findIdx?_eq_some_iff_getElem.mp hidx
  have hne : items.isEmpty = false := by
    rcases items with _ | _
    · simp [sortStep, spreadCopy] at hilen
    · rfl
  have htruthy : jsTruthyStr (some s) = true := by simp [jsTruthyStr, hs]
  rw [diffItems]
  rw [if_neg (by simp [hne]), if_neg (by simp [htruthy])]
  simp only [htruthy, if_true, Option.getD_some, hidx]
  rcases Nat.lt_or_ge (i + 1) (sortStep items).length with hlt | hge
  · have hdrop : ((sortStep items).drop (i + 1)).isEmpty = false := by
      rcases hd : (sortStep items).drop (i + 1) with _ | _
      · exfalso
        have := List.drop_eq_nil_iff.mp hd
        omega
      · rfl
    simp [hdrop]
  · have hlen : (sortStep items).length = i + 1 := by omega
    have hdropnil : (sortStep items).drop (i + 1) = [] :=
      List.drop_eq_nil_iff.mpr (by omega)
    have hfalsy : jsTruthyNum lastDate = false := by
      rcases hcond with h | h
      · omega
      · exact h
    have hlast : (sortStep items).getLast? = some ((sortStep items)[i]) := by
      have hi : (sortStep items).length - 1 = i := by omega
      rw [List.getLast?_eq_getElem?, hi]
      simp [List.getElem?_eq_getElem hilen]
    have hid : (sortStep items)[i].id = s := eq_of_beq hpi
    rw [hdropnil]
    simp [hfalsy, hlast, hid]

theorem diffItems_after_id_witness :
    ("a" : String) ≠ ""
    ∧ (sortStep [⟨"a", "a", none, some 1, none⟩, ⟨"b", "b", none, some 2, none⟩]).findIdx?
        (fun it => it.id == "a") = some 0
    ∧ (diffItems [⟨"a", "a", none, some 1, none⟩, ⟨"b", "b", none, some 2, none⟩]
        (some "a") (some 99)).newItems = [⟨"b", "b", none, some 2, none⟩] := by
  refine ⟨by decide, by decide, ?_⟩
  have h := diffItems_after_id
    [⟨"a", "a", none, some 1, none⟩, ⟨"b", "b", none, some 2, none⟩]
    "a" (some 99) 0 (by decide) (by decide) (Or.inl (by decide))
  rw [h]
  decide

/-- C1 counterexample to the claim as stated: with `lastItemId = "b"` found at
the *last* position of the ordered list, the strictly-after suffix is empty, yet a
passed `lastItemDate = 1` makes the date fallback fire and return the matched item
itself — so the result does depend on `lastItemDate`. -/
theorem diffItems_after_id_counterexample :
    (sortStep [⟨"a", "a", none, some 1, none⟩, ⟨"b", "b", none, some 2, none⟩]).findIdx?
        (fun it => it.id == "b") = some 1
    ∧ (sortStep [⟨"a", "a", none, some 1, none⟩, ⟨"b", "b", none, some 2, none⟩]).drop 2 = []
    ∧ (diffItems [⟨"a", "a", none, some 1, none⟩, ⟨"b", "b", none, some 2, none⟩]
        (some "b") (some 1)).newItems = [⟨"b", "b", none, some 2, none⟩] := by decide

/-- C2 (amended): when `lastItemId` identifies no item and `lastItemDate` is a
positive epoch value `d`, the fallback returns exactly the items with date `> d`,
ascending (a filter of the sorted list, hence sorted); but when that set is
empty, the single-item last resort applies: the latest item if its id differs
from `lastItemId`, else nothing. -/
theorem diffItems_date_fallback (items : List FeedItem) (lastId : Option String)
    (d : Int) (hd : 0 < d) (hnf : ∀ it ∈ items, some it.id ≠ lastId) :
    ((diffItems items lastId (some d)).newItems
        = if ((sortStep items).filter fun it => decide (d < dateKey it)) = [] then
            (if (sortStep items).getLast?.map (·.id) ≠ lastId
             then (sortStep items).getLast?.toList else [])
          else (sortStep items).filter fun it => decide (d < dateKey it))
    ∧ ((sortStep items).filter fun it => decide (d < dateKey it)).Sorted dateLe := by
  refine ⟨?_, (sortStep_sorted items).filter _⟩
  have hfilter : ((sortStep items).filter fun it =>
      match it.date with
      | some dd => dd != 0 && decide ((some d).getD 0 < dd)
      | none => false)
      = (sortStep items).filter fun it => decide (d < dateKey it) := by
    apply List.filter_congr
    intro it _
    rcases hdate : it.date with _ | dd
    · simp [dateKey, hdate]
      omega
    · simp only [dateKey, hdate, Option.getD_some]
      by_cases hlt : d < dd
      · have : dd ≠ 0 := by omega
        simp [hlt, this]
      · simp [hlt]
  rcases hempty : items with _ | ⟨a, t⟩
  · rw [diffItems]
    simp [sortStep, spreadCopy]
  rw [← hempty]
  have hne : items.isEmpty = false := by rw [hempty]; rfl
  have hsne : sortStep items ≠ [] := sortStep_ne_nil items (by rw [hempty]; simp)
  obtain ⟨last, hlast⟩ : ∃ y, (sortStep items).getLast? = some y := by
    cases hl : (sortStep items).getLast? with
    | none => exact absurd (List.getLast?_eq_none_iff.mp hl) hsne
    | some y => exact ⟨y, rfl⟩
  have htruthyd : jsTruthyNum (some d) = true := by
    simp [jsTruthyNum]; omega
  have hnew1 : (if jsTruthyStr lastId = true then
      match (sortStep items).findIdx? (fun it => it.id == lastId.getD "") with
      | some i => (sortStep items).drop (i + 1)
      | none => []
    else []) = [] := by
    by_cases ht : jsTruthyStr lastId = true
    · rcases lastId with _ | s
      · simp [jsTruthyStr] at ht
      · have hfind : (sortStep items).findIdx? (fun it => it.id == s) = none := by
          apply List.findIdx?_eq_none_iff.mpr
          intro x hx
          have hx' : x ∈ items := mem_sortStep.mp hx
          have := hnf x hx'
          simp only [ne_eq, Option.some.injEq] at this
          simp [this]
        simp [ht, hfind]
    · simp [ht]
  rw [diffItems]
  rw [if_neg (by simp [hne])]
  rw [if_neg (by simp [htruthyd])]
  simp only [hnew1, htruthyd, List.isEmpty_nil, and_true, true_and, if_true, hfilter, hlast]
  rcases hf : (sortStep items).filter fun it => decide (d < dateKey it) with _ | ⟨x, xs⟩
  · by_cases hid : some last.id ≠ lastId
    · simp [hid, Option.toList]
    · simp only [ne_eq, not_not] at hid
      simp [hid]
  · simp

theorem diffItems_date_fallback_witness :
    ((0 : Int) < 10)
    ∧ (diffItems [⟨"a", "a", none, some 5, none⟩] (some "x") (some 10)).newItems
        = [⟨"a", "a", none, some 5, none⟩] := by
  refine ⟨by decide, ?_⟩
  rw [(diffItems_date_fallback [⟨"a", "a", none, some 5, none⟩] (some "x") 10
    (by decide) (by decide)).1]
  decide

/-- C2 counterexample to the claim as stated: id not found, `lastItemDate =
10`, and *no* item has a date greater than `10` — yet `newItems` is not empty:
the single-item last resort returns the latest item. -/
theorem diffItems_date_fallback_counterexample :
    (([⟨"a", "a", none, some 5, none⟩] : List FeedItem).filter
        fun it => decide ((10 : Int) < dateKey it)) = []
    ∧ (diffItems [⟨"a", "a", none, some 5, none⟩] (some "x") (some 10)).newItems
        = [⟨"a", "a", none, some 5, none⟩] := by decide

/-! ## Theorems about the claims: normalization -/

/-- C5 (amended): the normalized item id follows *presence* precedence — the
guid/entry-id field whenever `pickText` yields a value (even the empty string),
else the resolved link whenever `pickLink` yields one, else the defaulted title.
(The claim's "first non-empty wins" fails: see the counterexample.) -/
theorem normalize_id_precedence (dp : String → Option Int) (item entry : JVal)
    (fi fe : FeedItem)
    (hr : normalizeRssItem dp item = some fi)
    (ha : normalizeAtomEntry dp entry = some fe) :
    ((∀ g, pickText (item.get "guid") = some g → fi.id = g)
      ∧ (pickText (item.get "guid") = none →
          ∀ l, pickLink (item.get "link") = some l → fi.id = l)
      ∧ (pickText (item.get "guid") = none → pickLink (item.get "link") = none →
          fi.id = (pickText (item.get "title")).getD "(no title)"))
    ∧ ((∀ g, pickText (entry.get "id") = some g → fe.id = g)
      ∧ (pickText (entry.get "id") = none →
          ∀ l, pickLink (entry.get "link") = some l → fe.id = l)
      ∧ (pickText (entry.get "id") = none → pickLink (entry.get "link") = none →
          fe.id = (pickText (entry.get "title")).getD "(no title)")) := by
  rw [normalizeRssItem] at hr
  rw [normalizeAtomEntry] at ha
  by_cases hfr : item.falsy = true
  · simp [hfr] at hr
  · by_cases hfa : entry.falsy = true
    · simp [hfa] at ha
    · simp only [hfr, hfa, Bool.false_eq_true, if_false, ite_false, Option.some.injEq] at hr ha
      constructor
      · refine ⟨fun g hg => ?_, fun hg l hl => ?_, fun hg hl => ?_⟩
        · rw [← hr]; simp [hg]
        · rw [← hr]; simp [hg, hl]
        · rw [← hr]; simp [hg, hl]
      · refine ⟨fun g hg => ?_, fun hg l hl => ?_, fun hg hl => ?_⟩
        · rw [← ha]; simp [hg]
        · rw [← ha]; simp [hg, hl]
        · rw [← ha]; simp [hg, hl]

theorem normalize_id_precedence_witness :
    normalizeRssItem (fun _ => none)
        (.obj [("guid", .str "G"), ("link", .str "L"), ("title", .str "T")])
      = some ⟨"G", "T", some "L", none, none⟩
    ∧ (⟨"G", "T", some "L", none, none⟩ : FeedItem).id = "G"
    ∧ (⟨"I", "T", none, none, none⟩ : FeedItem).id = "I" := by
  have hr : normalizeRssItem (fun _ => none)
      (.obj [("guid", .str "G"), ("link", .str "L"), ("title", .str "T")])
      = some ⟨"G", "T", some "L", none, none⟩ := by
    simp [normalizeRssItem, pickText, pickLink, JVal.get, JVal.hasKey, JVal.falsy,
      parseDate, JVal.coalesce, jsString]
  have ha : normalizeAtomEntry (fun _ => none)
      (.obj [("id", .str "I"), ("title", .str "T")])
      = some ⟨"I", "T", none, none, none⟩ := by
    simp [normalizeAtomEntry, pickText, pickLink, JVal.get, JVal.hasKey, JVal.falsy,
      parseDate, JVal.coalesce, jsString]
  have h := normalize_id_precedence (fun _ => none) _ _ _ _ hr ha
  refine ⟨hr, h.1.1 "G" ?_, h.2.1 "I" ?_⟩
  · simp [pickText, JVal.get]
  · simp [pickText, JVal.get]

/-- C5 counterexample to the claim as stated: an explicit but *empty* guid
wins over a non-empty link — the precedence is nullish-based (`??`), not
"first non-empty". -/
theorem normalize_id_counterexample :
    (normalizeRssItem (fun _ => none)
        (.obj [("guid", .str ""), ("link", .str "http://x"), ("title", .str "T")])).map
      (·.id) = some ""
    ∧ ("" : String) ≠ "http://x" := by
  constructor
  · simp [normalizeRssItem, pickText, pickLink, JVal.get, JVal.hasKey, JVal.falsy,
      parseDate, JVal.coalesce, jsString]
  · decide

/-- C9: `diffItems` does not mutate its input: the post-call content of the
caller's `items` array equals the pre-call content — the ordering step sorts the
spread copy, never the input. -/
theorem diffItems_input_unchanged (items : List FeedItem) (lastId : Option String)
    (lastDate : Option Int) :
    (diffItemsRun items lastId lastDate).2 = items ∧ spreadCopy items = items :=
  ⟨rfl, rfl⟩

/-! ## Store lemmas -/

theorem find?_put_map (t : KVStore) (k k' : String) (v : StoredVal) (h : k' ≠ k) :
    ((t.map fun e => if e.1 == k then (k, v) else e).find? fun e => e.1 == k')
      = t.find? fun e => e.1 == k' := by
  induction t with
  | nil => rfl
  | cons e t ih =>
    by_cases hek : (e.1 == k) = true
    · have he : e.1 = k := by simpa using hek
      have hkk' : (k == k') = false := by
        simp only [beq_eq_false_iff_ne, ne_eq]
        exact Ne.symm h
      have hek' : (e.1 == k') = false := by rw [he]; exact hkk'
      rw [List.map_cons, if_pos hek, List.find?_cons, List.find?_cons]
      simp only [hkk', hek']
      exact ih
    · rw [List.map_cons, if_neg hek, List.find?_cons, List.find?_cons]
      by_cases hk' : (e.1 == k') = true
      · simp only [hk']
      · have hk'' : (e.1 == k') = false := by simpa using hk'
        simp only [hk'']
        exact ih

theorem find?_put_map_same (t : KVStore) (k : String) (v : StoredVal)
    (hany : (t.any fun e => e.1 == k) = true) :
    ((t.map fun e => if e.1 == k then (k, v) else e).find? fun e => e.1 == k)
      = some (k, v) := by
  induction t with
  | nil => simp at hany
  | cons e t ih =>
    by_cases hek : (e.1 == k) = true
    · rw [List.map_cons, if_pos hek, List.find?_cons]
      simp
    · have hek' : (e.1 == k) = false := by simpa using hek
      rw [List.map_cons, if_neg hek, List.find?_cons]
      simp only [hek']
      apply ih
      simpa [List.any_cons, hek'] using hany

theorem kvGet_kvPut_same (st : KVStore) (k : String) (v : StoredVal) :
    kvGet (kvPut st k v) k = some v := by
  rw [kvPut]
  by_cases hany : (st.any fun e => e.1 == k) = true
  · rw [if_pos hany, kvGet, find?_put_map_same st k v hany]
    rfl
  · rw [if_neg hany, kvGet, List.find?_append]
    have hnone : (st.find? fun e => e.1 == k) = none := by
      rw [List.find?_eq_none]
      intro x hx hpx
      exact hany (List.any_eq_true.mpr ⟨x, hx, hpx⟩)
    rw [hnone]
    simp [List.find?]


theorem kvGet_kvPut_other (st : KVStore) (k k' : String) (v : StoredVal) (h : k' ≠ k) :
    kvGet (kvPut st k v) k' = kvGet st k' := by
  rw [kvPut]
  by_cases hany : (st.any fun e => e.1 == k) = true
  · rw [if_pos hany, kvGet, find?_put_map st k k' v h, kvGet]
  · rw [if_neg hany, kvGet, List.find?_append, kvGet]
    have hsingle : (([(k, v)] : KVStore).find? fun e => e.1 == k') = none := by
      simp only [List.find?]
      have : (k == k') = false := by
        simp [beq_iff_eq]; exact Ne.symm h
      simp [this]
    rw [hsingle]
    simp

theorem kvGet_applyWrites_other (st : KVStore) (ws : List (String × StoredVal)) (k : String)
    (h : ∀ w ∈ ws, w.1 ≠ k) : kvGet (applyWrites st ws) k = kvGet st k := by
  induction ws generalizing st with
  | nil => rfl
  | cons w t ih =>
    rw [applyWrites, List.foldl_cons]
    have hfold : List.foldl (fun s e => kvPut s e.1 e.2) (kvPut st w.1 w.2) t
        = applyWrites (kvPut st w.1 w.2) t := rfl
    rw [hfold, ih _ fun w' hw' => h w' (List.mem_cons_of_mem _ hw')]
    exact kvGet_kvPut_other st w.1 k w.2 (Ne.symm (h w (List.mem_cons_self _ _)))

theorem getIndexList_put_index (st : KVStore) (g : String) (ids : List String) :
    getIndexList (kvPut st (guildIndexKey g) (.indexVal ids)) g = some ids := by
  rw [getIndexList, kvGet_kvPut_same]

theorem length_filter_ne_lt_of_mem {L : List String} {x : String} (h : x ∈ L) :
    (L.filter fun id => id ≠ x).length < L.length := by
  induction L with
  | nil => cases h
  | cons a t ih =>
    rw [List.filter_cons]
    by_cases hax : a = x
    · have hpred : (decide (a ≠ x)) = false := by simp [hax]
      have hle := List.length_filter_le (fun id => decide (id ≠ x)) t
      rw [hpred]
      simp only [Bool.false_eq_true, if_false, ite_false, List.length_cons]
      omega
    · have hpred : (decide (a ≠ x)) = true := by simp [hax]
      have hmem : x ∈ t := by
        rcases List.mem_cons.mp h with rfl | hm
        · exact absurd rfl hax
        · exact hm
      have hlt := ih hmem
      rw [hpred]
      simp only [if_true, ite_true, List.length_cons]
      omega

/-! ## Theorems about the claims: guild index -/

/-- C6 (amended): `addToIndex` then `removeFromIndex` for the same id leaves
the index listing exactly the prior ids with that id filtered out — hence exactly
the prior membership whenever the id was not already present; when it *was*
present beforehand, the pair of calls removes it (see the counterexample). -/
theorem index_roundtrip (st : KVStore) (g subId : String)
    (h : kvGet st (guildIndexKey g) = none
      ∨ ∃ L, kvGet st (guildIndexKey g) = some (.indexVal L)) :
    (getIndexList
        (applyWrites (applyWrites st (addToIndex st g subId))
          (removeFromIndex (applyWrites st (addToIndex st g subId)) g subId)) g).getD []
      = ((getIndexList st g).getD []).filter (fun id => id ≠ subId) := by
  by_cases hmem : subId ∈ (getIndexList st g).getD []
  · have hadd : addToIndex st g subId = [] := by
      rw [addToIndex]; simp [hmem]
    rw [hadd]
    show (getIndexList (applyWrites st (removeFromIndex st g subId)) g).getD [] = _
    have hlen : ((((getIndexList st g).getD []).filter fun id => id ≠ subId)).length
        ≠ ((getIndexList st g).getD []).length := by
      have := length_filter_ne_lt_of_mem hmem
      omega
    rw [removeFromIndex]
    simp only [hlen, ne_eq, if_true, ite_true, not_false_eq_true]
    show (getIndexList (kvPut st (guildIndexKey g)
      (.indexVal (((getIndexList st g).getD []).filter fun id => id ≠ subId))) g).getD [] = _
    rw [getIndexList_put_index]
    rfl
  · have hadd : addToIndex st g subId
        = [(guildIndexKey g, .indexVal (((getIndexList st g).getD []) ++ [subId]))] := by
      rw [addToIndex]; simp [hmem]
    rw [hadd]
    show (getIndexList (applyWrites (kvPut st (guildIndexKey g) _)
      (removeFromIndex (kvPut st (guildIndexKey g) _) g subId)) g).getD [] = _
    have hidx1 : getIndexList (kvPut st (guildIndexKey g)
        (.indexVal (((getIndexList st g).getD []) ++ [subId]))) g
        = some (((getIndexList st g).getD []) ++ [subId]) := getIndexList_put_index ..
    have hfilter : ((((getIndexList st g).getD []) ++ [subId]).filter fun id => id ≠ subId)
        = ((getIndexList st g).getD []).filter (fun id => id ≠ subId) := by
      rw [List.filter_append]
      simp
    have hfself : (((getIndexList st g).getD []).filter fun id => id ≠ subId)
        = (getIndexList st g).getD [] := by
      apply List.filter_eq_self.mpr
      intro a ha
      simp only [ne_eq, decide_not]
      simp
      exact fun hEq => hmem (hEq ▸ ha)
    have hlen : ((((getIndexList st g).getD []) ++ [subId]).filter fun id => id ≠ subId).length
        ≠ (((getIndexList st g).getD []) ++ [subId]).length := by
      rw [hfilter, hfself]
      simp
    rw [removeFromIndex]
    simp only [hidx1, Option.getD_some, hlen, ne_eq, if_true, ite_true, not_false_eq_true]
    show (getIndexList (kvPut _ (guildIndexKey g) _) g).getD [] = _
    rw [getIndexList_put_index]
    simp only [Option.getD_some]
    exact hfilter

theorem index_roundtrip_witness :
    (kvGet [(guildIndexKey "g", StoredVal.indexVal ["a", "b"])] (guildIndexKey "g") = none
      ∨ ∃ L, kvGet [(guildIndexKey "g", StoredVal.indexVal ["a", "b"])] (guildIndexKey "g")
          = some (.indexVal L))
    ∧ (getIndexList
        (applyWrites
          (applyWrites [(guildIndexKey "g", StoredVal.indexVal ["a", "b"])]
            (addToIndex [(guildIndexKey "g", StoredVal.indexVal ["a", "b"])] "g" "c"))
          (removeFromIndex
            (applyWrites [(guildIndexKey "g", StoredVal.indexVal ["a", "b"])]
              (addToIndex [(guildIndexKey "g", StoredVal.indexVal ["a", "b"])] "g" "c"))
            "g" "c")) "g").getD [] = ["a", "b"] := by
  constructor
  · exact Or.inr ⟨["a", "b"], by decide⟩
  · rw [index_roundtrip [(guildIndexKey "g", StoredVal.indexVal ["a", "b"])] "g" "c"
      (Or.inr ⟨["a", "b"], by decide⟩)]
    decide

/-- C6 counterexample to the claim as stated: if the id *was already present*
in the index, `addToIndex` is a no-op but `removeFromIndex` deletes it, so the
pair of calls does not restore the prior membership. -/
theorem index_roundtrip_counterexample :
    "a" ∈ (getIndexList [(guildIndexKey "g", StoredVal.indexVal ["a"])] "g").getD []
    ∧ "a" ∉ (getIndexList
        (applyWrites
          (applyWrites [(guildIndexKey "g", StoredVal.indexVal ["a"])]
            (addToIndex [(guildIndexKey "g", StoredVal.indexVal ["a"])] "g" "a"))
          (removeFromIndex
            (applyWrites [(guildIndexKey "g", StoredVal.indexVal ["a"])]
              (addToIndex [(guildIndexKey "g", StoredVal.indexVal ["a"])] "g" "a"))
            "g" "a")) "g").getD [] := by decide

theorem getSub_cons_ne (e : String × StoredVal) (t : KVStore) (k : String)
    (h : (e.1 == k) = false) : getSub (e :: t) k = getSub t k := by
  rw [getSub, getSub, kvGet, kvGet, List.find?_cons]
  simp only [h]

theorem listSubscriptionsByGuild_eq (st : KVStore) (g : String)
    (hnodup : (st.map Prod.fst).Nodup) :
    listSubscriptionsByGuild st g = validGuildRecords st g := by
  induction st with
  | nil => rfl
  | cons e t ih =>
    have hnodup' : e.1 ∉ t.map Prod.fst ∧ (t.map Prod.fst).Nodup := by
      rw [List.map_cons] at hnodup
      exact List.nodup_cons.mp hnodup
    obtain ⟨hnotin, hnd⟩ := hnodup'
    have htail : ∀ k ∈ (t.map Prod.fst).filter (fun k => strStarts k ("sub:g:" ++ g ++ ":")),
        (fun k => getSub (e :: t) k) k = (fun k => getSub t k) k := by
      intro k hk
      have hkmem : k ∈ t.map Prod.fst := List.mem_of_mem_filter hk
      have hne : (e.1 == k) = false := by
        simp only [beq_eq_false_iff_ne, ne_eq]
        intro hEq
        exact hnotin (hEq ▸ hkmem)
      exact getSub_cons_ne e t k hne
    have hrest : ((t.map Prod.fst).filter
          (fun k => strStarts k ("sub:g:" ++ g ++ ":"))).filterMap
        (fun k => getSub (e :: t) k) = validGuildRecords t g :=
      (List.filterMap_congr htail).trans (ih hnd)
    have hhead : getSub (e :: t) e.1
        = (match e.2 with | StoredVal.subVal s => some s | _ => none) := by
      obtain ⟨ek, ev⟩ := e
      rw [getSub, kvGet, List.find?_cons]
      simp only [BEq.refl]
      cases ev <;> rfl
    show ((e.1 :: t.map Prod.fst).filter (fun k => strStarts k ("sub:g:" ++ g ++ ":"))).filterMap
        (fun k => getSub (e :: t) k) = validGuildRecords (e :: t) g
    rw [List.filter_cons]
    by_cases hpre : (strStarts e.1 ("sub:g:" ++ g ++ ":")) = true
    · rw [hpre]
      simp only [if_true, ite_true]
      rw [List.filterMap_cons, hhead, hrest]
      show _ = (e :: t).filterMap _
      rw [List.filterMap_cons]
      rw [if_pos hpre]
      cases e.2 <;> rfl
    · have hpre' : (strStarts e.1 ("sub:g:" ++ g ++ ":")) = false := by simpa using hpre
      rw [hpre']
      simp only [Bool.false_eq_true, if_false, ite_false]
      rw [hrest]
      show _ = (e :: t).filterMap _
      rw [List.filterMap_cons]
      rw [if_neg (by simp [hpre'])]
      rfl

/-- C7: with the tenant's index missing, empty, or not deserializable, the
listing falls back to the per-tenant scan: it returns exactly the tenant's valid
records, and the index stored afterwards lists exactly those records' ids. -/
theorem getSubscriptionsForGuild_selfheal (st : KVStore) (g : String)
    (hnodup : (st.map Prod.fst).Nodup)
    (hidx : (getIndexList st g).getD [] = []) :
    (getSubscriptionsForGuild st g).1 = validGuildRecords st g
    ∧ (getIndexList (applyWrites st (getSubscriptionsForGuild st g).2) g).getD []
        = (validGuildRecords st g).map (·.id) := by
  have hbranch : ¬(((getIndexList st g).getD []).length > 0) := by rw [hidx]; simp
  have hlist := listSubscriptionsByGuild_eq st g hnodup
  rw [getSubscriptionsForGuild]
  simp only []
  rw [if_neg hbranch]
  by_cases hfb : (listSubscriptionsByGuild st g).length > 0
  · rw [if_pos hfb]
    refine ⟨hlist, ?_⟩
    show (getIndexList (applyWrites st [(guildIndexKey g,
      StoredVal.indexVal ((listSubscriptionsByGuild st g).map (·.id)))]) g).getD [] = _
    have happ : applyWrites st [(guildIndexKey g,
        StoredVal.indexVal ((listSubscriptionsByGuild st g).map (·.id)))]
        = kvPut st (guildIndexKey g)
            (StoredVal.indexVal ((listSubscriptionsByGuild st g).map (·.id))) := rfl
    rw [happ, getIndexList_put_index]
    simp [hlist]
  · rw [if_neg hfb]
    have hfbnil : listSubscriptionsByGuild st g = [] := by
      rcases hl : listSubscriptionsByGuild st g with _ | _
      · rfl
      · rw [hl] at hfb; simp at hfb
    refine ⟨hlist, ?_⟩
    show (getIndexList (applyWrites st []) g).getD [] = _
    rw [show applyWrites st [] = st from rfl, hidx, ← hlist, hfbnil]
    rfl

theorem getSubscriptionsForGuild_selfheal_witness :
    (getSubscriptionsForGuild
        [(subscriptionKey "g" "s1",
            StoredVal.subVal ⟨"s1", "g", "c", "u", 0, none, none, none, none, none⟩),
         (guildIndexKey "g", StoredVal.corrupt)] "g").1
      = [⟨"s1", "g", "c", "u", 0, none, none, none, none, none⟩]
    ∧ (getIndexList
        (applyWrites
          [(subscriptionKey "g" "s1",
              StoredVal.subVal ⟨"s1", "g", "c", "u", 0, none, none, none, none, none⟩),
           (guildIndexKey "g", StoredVal.corrupt)]
          (getSubscriptionsForGuild
            [(subscriptionKey "g" "s1",
                StoredVal.subVal ⟨"s1", "g", "c", "u", 0, none, none, none, none, none⟩),
             (guildIndexKey "g", StoredVal.corrupt)] "g").2) "g").getD []
      = ["s1"] := by
  obtain ⟨h1, h2⟩ := getSubscriptionsForGuild_selfheal
    [(subscriptionKey "g" "s1",
        StoredVal.subVal ⟨"s1", "g", "c", "u", 0, none, none, none, none, none⟩),
     (guildIndexKey "g", StoredVal.corrupt)] "g" (by decide) (by decide)
  refine ⟨?_, ?_⟩
  · rw [h1]; decide
  · rw [h2]; decide

theorem filterMap_length_eq_of_isSome {l : List String} {f : String → Option Subscription}
    (h : ∀ a ∈ l, (f a).isSome) : (l.filterMap f).length = l.length := by
  induction l with
  | nil => rfl
  | cons a t ih =>
    rcases hfa : f a with _ | b
    · exact absurd (h a (List.mem_cons_self a t)) (by simp [hfa])
    · rw [List.filterMap_cons_some hfa, List.length_cons, List.length_cons,
        ih fun x hx => h x (List.mem_cons_of_mem a hx)]

theorem exists_none_of_filterMap_length_ne {l : List String} {f : String → Option Subscription}
    (h : (l.filterMap f).length ≠ l.length) : ∃ a ∈ l, f a = none := by
  by_contra hc
  push_neg at hc
  exact h (filterMap_length_eq_of_isSome fun a ha =>
    Option.ne_none_iff_isSome.mp (hc a ha))

/-- C10: when the stored index is non-empty and every listed id resolves to a
valid record, the listing performs no write at all; conversely a write happens
only when some listed id failed to resolve, or the fallback-scan path ran with a
non-empty result. -/
theorem getSubscriptionsForGuild_frame (st : KVStore) (g : String) :
    (∀ L, getIndexList st g = some L → L ≠ [] →
        (∀ id ∈ L, (getSub st (subscriptionKey g id)).isSome) →
        (getSubscriptionsForGuild st g).2 = [])
    ∧ ((getSubscriptionsForGuild st g).2 ≠ [] →
        (∃ L, getIndexList st g = some L ∧ L ≠ []
            ∧ ∃ id ∈ L, getSub st (subscriptionKey g id) = none)
          ∨ ((getIndexList st g).getD [] = []
              ∧ listSubscriptionsByGuild st g ≠ [])) := by
  constructor
  · intro L hL hLne hall
    rw [getSubscriptionsForGuild]
    simp only []
    have hcond : ((getIndexList st g).getD []).length > 0 := by
      rw [hL]
      simpa using List.length_pos.mpr hLne
    rw [if_pos hcond]
    have hlen : ((((getIndexList st g).getD []).filterMap
        fun id => getSub st (subscriptionKey g id)).length
        = ((getIndexList st g).getD []).length) := by
      apply filterMap_length_eq_of_isSome
      intro a ha
      rw [hL] at ha
      exact hall a ha
    simp [hlen]
  · intro hw
    rw [getSubscriptionsForGuild] at hw
    simp only [] at hw
    by_cases hcond : ((getIndexList st g).getD []).length > 0
    · rw [if_pos hcond] at hw
      left
      rcases hIdx : getIndexList st g with _ | L
      · rw [hIdx] at hcond; simp at hcond
      · refine ⟨L, rfl, ?_, ?_⟩
        · intro h0
          rw [hIdx, h0] at hcond
          simp at hcond
        · rw [hIdx] at hw
          simp only [Option.getD_some] at hw
          by_cases hlen : ((L.filterMap fun id => getSub st (subscriptionKey g id)).length
              ≠ L.length)
          · exact exists_none_of_filterMap_length_ne hlen
          · rw [if_neg hlen] at hw
            exact absurd rfl hw
    · rw [if_neg hcond] at hw
      right
      refine ⟨?_, ?_⟩
      · rcases hIdx : (getIndexList st g).getD [] with _ | _
        · rfl
        · rw [hIdx] at hcond
          simp at hcond
      · by_cases hfb : (listSubscriptionsByGuild st g).length > 0
        · intro h0
          rw [h0] at hfb
          simp at hfb
        · rw [if_neg hfb] at hw
          exact absurd rfl hw

theorem getSubscriptionsForGuild_frame_witness :
    (getSubscriptionsForGuild
        [(guildIndexKey "g", StoredVal.indexVal ["s1"]),
         (subscriptionKey "g" "s1",
            StoredVal.subVal ⟨"s1", "g", "c", "u", 0, none, none, none, none, none⟩)]
        "g").2 = [] :=
  (getSubscriptionsForGuild_frame
      [(guildIndexKey "g", StoredVal.indexVal ["s1"]),
       (subscriptionKey "g" "s1",
          StoredVal.subVal ⟨"s1", "g", "c", "u", 0, none, none, none, none, none⟩)]
      "g").1 ["s1"] (by decide) (by decide) (by decide)

/-! ## Cycle-driver lemmas -/

theorem sendAll_fails (env : FetchEnv) (ch : String) (l : List FeedItem)
    (h : ∃ it ∈ l, env.sendOk ch (formatDiscordMessage it) = false) :
    ∃ e, (sendAll env ch l).2 = some e := by
  induction l with
  | nil =>
      rcases h with ⟨it, hit, -⟩
      cases hit
  | cons a t ih =>
      rw [sendAll]
      by_cases hok : env.sendOk ch (formatDiscordMessage a) = true
      · simp only [hok, if_true, ite_true]
        apply ih
        rcases h with ⟨it, hit, hf⟩
        rcases List.mem_cons.mp hit with rfl | hmem
        · rw [hok] at hf; cases hf
        · exact ⟨it, hmem, hf⟩
      · simp [hok]

theorem feedTitle_update_fields (sub : Subscription) (b : Bool) (nt : Option String) :
    (if b then { sub with feedTitle := nt } else sub).lastItemId = sub.lastItemId
    ∧ (if b then { sub with feedTitle := nt } else sub).lastItemDate = sub.lastItemDate
    ∧ (if b then { sub with feedTitle := nt } else sub).errorCount = sub.errorCount
    ∧ (if b then { sub with feedTitle := nt } else sub).guildId = sub.guildId
    ∧ (if b then { sub with feedTitle := nt } else sub).id = sub.id := by
  cases b <;> exact ⟨rfl, rfl, rfl, rfl, rfl⟩

theorem processSubscription_error_state (env : FetchEnv) (sub : Subscription) {msg : String}
    (h : (processSubscription env sub).error = some msg) :
    (processSubscription env sub).sub.lastItemId = sub.lastItemId
    ∧ (processSubscription env sub).sub.lastItemDate = sub.lastItemDate
    ∧ (processSubscription env sub).sub.errorCount = sub.errorCount
    ∧ (processSubscription env sub).sub.guildId = sub.guildId
    ∧ (processSubscription env sub).sub.id = sub.id
    ∧ (processSubscription env sub).writes = [] := by
  suffices hgen : ∀ out : ProcOut, processSubscription env sub = out → out.error = some msg →
      out.sub.lastItemId = sub.lastItemId ∧ out.sub.lastItemDate = sub.lastItemDate
      ∧ out.sub.errorCount = sub.errorCount ∧ out.sub.guildId = sub.guildId
      ∧ out.sub.id = sub.id ∧ out.writes = [] from hgen _ rfl h
  intro out hout herr
  rw [processSubscription] at hout
  split at hout
  · subst hout; exact ⟨rfl, rfl, rfl, rfl, rfl, rfl⟩
  · subst hout; exact ⟨rfl, rfl, rfl, rfl, rfl, rfl⟩
  · split at hout
    · subst hout; exact ⟨rfl, rfl, rfl, rfl, rfl, rfl⟩
    · simp only [] at hout
      split at hout
      · subst hout; simp at herr
      · split at hout
        · subst hout; simp at herr
        · split at hout
          · subst hout
            exact ⟨(feedTitle_update_fields sub _ _).1,
              (feedTitle_update_fields sub _ _).2.1,
              (feedTitle_update_fields sub _ _).2.2.1,
              (feedTitle_update_fields sub _ _).2.2.2.1,
              (feedTitle_update_fields sub _ _).2.2.2.2, rfl⟩
          · subst hout; simp at herr

theorem processSubscription_writes_key (env : FetchEnv) (sub : Subscription) :
    ∀ w ∈ (processSubscription env sub).writes,
      w.1 = subscriptionKey sub.guildId sub.id := by
  suffices hgen : ∀ out : ProcOut, processSubscription env sub = out →
      ∀ w ∈ out.writes, w.1 = subscriptionKey sub.guildId sub.id from hgen _ rfl
  intro out hout w hw
  rw [processSubscription] at hout
  split at hout
  · subst hout; simp at hw
  · subst hout; simp at hw
  · split at hout
    · subst hout; simp at hw
    · simp only [] at hout
      split at hout
      · subst hout
        simp only [] at hw
        split at hw
        · simp only [List.mem_singleton] at hw
          subst hw
          show subscriptionKey _ _ = _
          repeat' split
          all_goals rfl
        · simp at hw
      · split at hout
        · subst hout
          simp only [] at hw
          split at hw
          · simp only [List.mem_singleton] at hw
            subst hw
            show subscriptionKey _ _ = _
            repeat' split
            all_goals rfl
          · simp at hw
        · split at hout
          · subst hout; simp at hw
          · subst hout
            simp only [List.mem_singleton] at hw
            subst hw
            show subscriptionKey _ _ = _
            repeat' split
            all_goals rfl

theorem processSubscription_fails (env : FetchEnv) (sub : Subscription)
    (h : procFailure env sub) : ∃ msg, (processSubscription env sub).error = some msg := by
  rw [procFailure] at h
  rcases h with ⟨status, hf⟩ | hf | ⟨feed, hf, hun⟩ | ⟨feed, hf, hun, it, hit, hsendf⟩
  · rw [processSubscription]
    simp only [hf]
    exact ⟨_, rfl⟩
  · rw [processSubscription]
    simp only [hf]
    exact ⟨_, rfl⟩
  · rw [processSubscription]
    simp only [hf]
    rw [if_pos hun]
    exact ⟨_, rfl⟩
  · rw [processSubscription]
    simp only [hf]
    rw [if_neg hun]
    have hemp : feed.items.isEmpty = false := by
      rcases hitems : feed.items with _ | _
      · rw [hitems] at hit
        rw [diffItems] at hit
        simp at hit
      · rfl
    rw [hemp]
    simp only [Bool.false_eq_true, if_false, ite_false]
    have hre : (diffItems feed.items sub.lastItemId sub.lastItemDate).newItems.isEmpty
        = false := by
      rcases hni : (diffItems feed.items sub.lastItemId sub.lastItemDate).newItems with _ | _
      · rw [hni] at hit; cases hit
      · rfl
    rw [hre]
    simp only [Bool.false_eq_true, if_false, ite_false]
    obtain ⟨e, he⟩ := sendAll_fails env sub.channelId _ ⟨it, hit, hsendf⟩
    rw [he]
    exact ⟨e, rfl⟩

theorem getSub_eq_of_kvGet {st : KVStore} {k : String} {v : Subscription}
    (h : kvGet st k = some (.subVal v)) : getSub st k = some v := by
  rw [getSub, h]

theorem runLoop_append (env : FetchEnv) (st : KVStore) (l1 l2 : List Subscription) :
    runLoop env st (l1 ++ l2)
      = ((runLoop env (runLoop env st l1).1 l2).1,
         (runLoop env st l1).2 ++ (runLoop env (runLoop env st l1).1 l2).2) := by
  induction l1 generalizing st with
  | nil => simp [runLoop]
  | cons s t ih =>
      rw [List.cons_append]
      simp only [runLoop]
      rw [ih]
      simp [List.append_assoc]

theorem kvGet_runLoop_other (env : FetchEnv) (st : KVStore) (subs : List Subscription)
    (k : String) (h : ∀ s ∈ subs, subscriptionKey s.guildId s.id ≠ k) :
    kvGet (runLoop env st subs).1 k = kvGet st k := by
  induction subs generalizing st with
  | nil => rfl
  | cons s t ih =>
      simp only [runLoop]
      cases herr : (processSubscription env s).error with
      | some msg =>
          simp only [herr]
          rw [ih _ fun s' hs' => h s' (List.mem_cons_of_mem _ hs')]
          have hfields := processSubscription_error_state env s herr
          have hne : k ≠ subscriptionKey (processSubscription env s).sub.guildId
              (processSubscription env s).sub.id := by
            rw [hfields.2.2.2.1, hfields.2.2.2.2.1]
            exact (h s (List.mem_cons_self _ _)).symm
          exact kvGet_kvPut_other _ _ _ _ hne
      | none =>
          simp only [herr]
          rw [ih _ fun s' hs' => h s' (List.mem_cons_of_mem _ hs')]
          apply kvGet_applyWrites_other
          intro w hw
          rw [processSubscription_writes_key env s w hw]
          exact h s (List.mem_cons_self _ _)

/-- C8: when a subscription's processing fails (fetch failure, parse error,
unsupported format, or notification-sink failure), the cycle driver persists its
record with `errorCount` incremented by exactly one and `lastError` set, leaves
both watermark fields unchanged, and continues with the remaining subscriptions:
the final state is that of processing `post` from the post-error store. -/
theorem runFeedChecks_error_isolation (env : FetchEnv) (st : KVStore)
    (pre post : List Subscription) (s : Subscription)
    (hact : activeSubs st = pre ++ s :: post)
    (hfail : procFailure env s)
    (hkeys : ∀ s' ∈ post, subscriptionKey s'.guildId s'.id ≠ subscriptionKey s.guildId s.id) :
    ∃ msg r,
      getSub (runFeedChecks env st).1 (subscriptionKey s.guildId s.id) = some r
      ∧ r.errorCount = some (s.errorCount.getD 0 + 1)
      ∧ r.lastError = some msg
      ∧ r.lastItemId = s.lastItemId
      ∧ r.lastItemDate = s.lastItemDate
      ∧ runFeedChecks env st
          = ((runLoop env
                (kvPut (runLoop env st pre).1 (subscriptionKey s.guildId s.id)
                  (.subVal (errUpdate (processSubscription env s).sub msg))) post).1,
             (runLoop env st pre).2 ++ ((processSubscription env s).sends
               ++ (runLoop env
                    (kvPut (runLoop env st pre).1 (subscriptionKey s.guildId s.id)
                      (.subVal (errUpdate (processSubscription env s).sub msg))) post).2)) := by
  obtain ⟨msg, hmsg⟩ := processSubscription_fails env s hfail
  have hfields := processSubscription_error_state env s hmsg
  have hkey : subscriptionKey (processSubscription env s).sub.guildId
      (processSubscription env s).sub.id = subscriptionKey s.guildId s.id := by
    rw [hfields.2.2.2.1, hfields.2.2.2.2.1]
  have hrun : runFeedChecks env st
      = ((runLoop env (kvPut (runLoop env st pre).1 (subscriptionKey s.guildId s.id)
            (.subVal (errUpdate (processSubscription env s).sub msg))) post).1,
         (runLoop env st pre).2 ++ ((processSubscription env s).sends
           ++ (runLoop env (kvPut (runLoop env st pre).1 (subscriptionKey s.guildId s.id)
                (.subVal (errUpdate (processSubscription env s).sub msg))) post).2)) := by
    rw [runFeedChecks, hact, runLoop_append]
    simp only [runLoop, hmsg, hkey]
  refine ⟨msg, errUpdate (processSubscription env s).sub msg, ?_, ?_, rfl, ?_, ?_, hrun⟩
  · rw [hrun]
    show getSub (runLoop env _ post).1 _ = _
    rw [getSub, kvGet_runLoop_other env _ post _ hkeys, kvGet_kvPut_same]
  · show some ((processSubscription env s).sub.errorCount.getD 0 + 1) = _
    rw [hfields.2.2.1]
  · show (processSubscription env s).sub.lastItemId = _
    exact hfields.1
  · show (processSubscription env s).sub.lastItemDate = _
    exact hfields.2.1

theorem runFeedChecks_error_isolation_witness :
    ∃ msg r,
      getSub (runFeedChecks envC8 stC8).1 (subscriptionKey "g" "s1") = some r
      ∧ r.errorCount = some 3
      ∧ r.lastError = some msg
      ∧ r.lastItemId = some "w"
      ∧ r.lastItemDate = some 5 := by
  obtain ⟨msg, r, h1, h2, h3, h4, h5, -⟩ :=
    runFeedChecks_error_isolation envC8 stC8 [] [subC8b] subC8a
      (by decide)
      (Or.inl ⟨500, by decide⟩)
      (by decide)
  refine ⟨msg, r, ?_, ?_, h3, ?_, ?_⟩
  · exact h1
  · rw [h2]; rfl
  · rw [h4]; rfl
  · rw [h5]; rfl
